import Mathlib

/-!
# Verification of the lovcode full-text search subsystem

Shallow embedding of `src-tauri/src/services/search.rs` (tokenizer,
transcript scanner, command-alias resolver, command-usage aggregator,
query post-filter) together with the calendar arithmetic behind the
chrono `%Y-W%V` week-key format, and proofs of the spec's claims about
that subsystem.

Modelling conventions:
* Strings are treated at `Char` granularity (the relevant source strings
  are ASCII, where Rust byte indices and char indices agree).
* External libraries (serde, the regex engine, chrono's RFC3339 parser,
  jieba's segmenter, tantivy's ranked retrieval) are modelled by their
  outputs, which appear as input data of the embedded functions.
* `HashMap<String, HashMap<String, usize>>` is modelled as a total
  function `String → String → Nat` defaulting to 0; `HashMap` insertion
  with overwrite is function update.
-/

set_option maxHeartbeats 1000000

namespace Lovcode

/-! ## JSON values (serde_json::Value) -/

inductive Json where
  | str (s : String)
  | num (n : Int)
  | bool (b : Bool)
  | null
  | arr (items : List Json)
  | obj (fields : List (String × Json))

/-- `Value::as_object` -/
def Json.asObject? : Json → Option (List (String × Json))
  | .obj f => some f
  | _ => none

/-- `Value::as_str` -/
def Json.asStr? : Json → Option String
  | .str s => some s
  | _ => none

/-- `Map::get` on a serde_json object (keys unique in parsed JSON). -/
def Json.objGet (fields : List (String × Json)) (key : String) : Option Json :=
  (fields.find? (fun p => p.1 == key)).map (·.2)

/-! ## Rust string primitives used by the scanner

Lean core's `String` API is byte-position based and does not reduce in
the kernel, so the embedding reimplements the handful of `str`/`Path`
operations the source uses over the character list.  Bounded recursion
is expressed with an explicit fuel argument (always instantiated with
the input length, which the recursion never exceeds). -/

def strLen (s : String) : Nat := s.toList.length

/-- Rust `str::starts_with`. -/
def strStartsWith (p s : String) : Bool := p.toList.isPrefixOf s.toList

/-- Rust `str::ends_with`. -/
def strEndsWith (p s : String) : Bool :=
  p.toList.reverse.isPrefixOf s.toList.reverse

/-- Slice dropping the first `n` characters (`&s[n..]`). -/
def strDrop (n : Nat) (s : String) : String := String.mk (s.toList.drop n)

/-- Slice dropping the last `n` characters. -/
def strDropRight (n : Nat) (s : String) : String :=
  String.mk (s.toList.take (s.toList.length - n))

/-- Rust `str::trim`. -/
def strTrim (s : String) : String :=
  String.mk
    (((s.toList.dropWhile Char.isWhitespace).reverse.dropWhile
        Char.isWhitespace).reverse)

/-- Splitter behind Rust's non-overlapping left-to-right pattern matching
(`split`, `find`, `replace`).  `sep` is never empty at use sites; `fuel`
bounds the recursion and is instantiated with the subject's length. -/
def splitOnListF (sep : List Char) :
    Nat → List Char → List Char → List (List Char)
  | 0, rest, acc => [acc.reverse ++ rest]
  | fuel + 1, s, acc =>
    match s with
    | [] => [acc.reverse]
    | c :: rest =>
      if sep.isPrefixOf s then
        acc.reverse :: splitOnListF sep fuel (s.drop sep.length) []
      else
        splitOnListF sep fuel rest (c :: acc)

/-- Rust `str::split(sep)` (collected). -/
def splitOnStr (sep s : String) : List String :=
  (splitOnListF sep.toList s.toList.length s.toList []).map String.mk

/-- Rust `[String]::join(sep)`. -/
def joinWith (sep : String) : List String → String
  | [] => ""
  | [x] => x
  | x :: y :: rest => x ++ sep ++ joinWith sep (y :: rest)

/-- Rust `str::replace(pat, rep)` (= split on `pat`, join with `rep`). -/
def strReplace (s pat rep : String) : String :=
  joinWith rep (splitOnStr pat s)

/-- Rust `str::lines()`: split at `'\n'`, drop a final empty piece produced
by a trailing newline, strip one trailing `'\r'` from each line. -/
def rustLines (s : String) : List String :=
  let parts := splitOnStr "\n" s
  let parts := if parts.getLast? = some "" then parts.dropLast else parts
  parts.map fun l => if strEndsWith "\r" l then strDropRight 1 l else l

/-- Rust `str::trim_start_matches(c)`: remove every leading occurrence of
the character. -/
def trimStartMatchesChar (c : Char) (s : String) : String :=
  String.mk (s.toList.dropWhile (· = c))

/-- Rust `str::trim_matches(c)`: remove every leading and trailing
occurrence of the character. -/
def trimMatchesChar (c : Char) (s : String) : String :=
  String.mk (((s.toList.dropWhile (· = c)).reverse.dropWhile (· = c)).reverse)

/-- Repeatedly remove prefix `p` while it matches (fueled). -/
def dropPrefixRepF (p : List Char) : Nat → List Char → List Char
  | 0, s => s
  | fuel + 1, s =>
    if p ≠ [] ∧ p.isPrefixOf s then dropPrefixRepF p fuel (s.drop p.length)
    else s

/-- Rust `str::trim_start_matches(pat)` for a string pattern. -/
def trimStartMatchesStr (p s : String) : String :=
  String.mk (dropPrefixRepF p.toList s.toList.length s.toList)

/-- Rust `str::trim_end_matches(pat)`: repeatedly remove the suffix while
it matches. -/
def trimEndMatchesStr (p s : String) : String :=
  String.mk
    ((dropPrefixRepF p.toList.reverse s.toList.length s.toList.reverse).reverse)

/-- Rust `Path::extension()` on a file name: the part after the last `'.'`,
unless there is no `'.'` past the first character. -/
def rustExtension (name : String) : Option String :=
  match name.toList with
  | [] => none
  | _ :: rest =>
    if rest.contains '.' then
      some (String.mk ((name.toList.reverse.takeWhile (· ≠ '.')).reverse))
    else none

/-- Rust `Path::with_extension("")` on a file name: strip the extension
(and its dot) if there is one. -/
def stripExtension (name : String) : String :=
  match rustExtension name with
  | some e => strDropRight (strLen e + 1) name
  | none => name

/-- The part of `s` strictly before the first occurrence of `sep`, if `sep`
occurs (Rust `s.find(sep)` + slice). -/
def beforeFirst (sep s : String) : Option String :=
  match splitOnStr sep s with
  | [] => none
  | [_] => none
  | first :: _ => some first

/-! ## extract_content_with_meta (search.rs lines 149-178) -/

/-- Embedding of `extract_content_with_meta`: extract text content from a
message content field, reporting whether any tool_use/tool_result block
is present. -/
def extract_content_with_meta : Option Json → String × Bool
  | some (.str s) => (s, false)
  | some (.arr arr) =>
    let has_tool := arr.any fun item =>
      match item.asObject? with
      | some obj =>
        let t := (Json.objGet obj "type").bind Json.asStr?
        t == some "tool_use" || t == some "tool_result"
      | none => false
    let text := joinWith "\n" (arr.filterMap fun item =>
      match item.asObject? with
      | some obj =>
        if (Json.objGet obj "type").bind Json.asStr? == some "text" then
          (Json.objGet obj "text").bind Json.asStr?
        else none
      | none => none)
    (text, has_tool)
  | _ => ("", false)

/-! Spec-side vocabulary for claim C2 (stated from the spec's words, to be
compared with the embedded function). -/

/-- A content block "whose type is text" (spec wording). -/
def isTextBlock (j : Json) : Bool :=
  match j.asObject? with
  | some obj => (Json.objGet obj "type").bind Json.asStr? == some "text"
  | none => false

/-- A tool-invocation or tool-result block (spec wording). -/
def isToolBlock (j : Json) : Bool :=
  match j.asObject? with
  | some obj =>
    let t := (Json.objGet obj "type").bind Json.asStr?
    t == some "tool_use" || t == some "tool_result"
  | none => false

/-- The `text` fields of the blocks whose type is "text", in list order. -/
def textFieldsOf (items : List Json) : List String :=
  items.filterMap fun j =>
    match j.asObject? with
    | some obj =>
      if isTextBlock j then (Json.objGet obj "text").bind Json.asStr? else none
    | none => none

lemma extract_arr_fst (items : List Json) :
    (extract_content_with_meta (some (.arr items))).1 =
      joinWith "\n" (textFieldsOf items) := by
  show joinWith "\n" _ = joinWith "\n" _
  congr 1
  apply List.filterMap_congr
  intro j _
  cases j <;> simp [Json.asObject?, isTextBlock]

lemma extract_arr_snd (items : List Json) :
    (extract_content_with_meta (some (.arr items))).2 = items.any isToolBlock := rfl

/-- **C2.** For every message content value: a plain JSON string is returned
verbatim with tool-presence `false`; a list of content blocks yields exactly
the `text` fields of the blocks whose type is `"text"`, in list order, joined
by a newline (tool_use / tool_result blocks contribute nothing), with
tool-presence `true` iff at least one block has type `tool_use` or
`tool_result`; a list with no text blocks yields the empty string. -/
theorem C2_content_extraction :
    (∀ s : String, extract_content_with_meta (some (.str s)) = (s, false)) ∧
    (∀ items : List Json,
      (extract_content_with_meta (some (.arr items))).1 =
          joinWith "\n" (textFieldsOf items) ∧
      ((extract_content_with_meta (some (.arr items))).2 = true ↔
          ∃ j ∈ items, isToolBlock j = true) ∧
      ((∀ j ∈ items, isTextBlock j = false) →
          (extract_content_with_meta (some (.arr items))).1 = "")) := by
  refine ⟨fun s => rfl, fun items => ⟨extract_arr_fst items, ?_, ?_⟩⟩
  · rw [extract_arr_snd]
    exact List.any_eq_true
  · intro h
    rw [extract_arr_fst items]
    have : textFieldsOf items = [] := by
      apply List.filterMap_eq_nil_iff.mpr
      intro j hj
      have := h j hj
      cases j <;> simp_all [Json.asObject?, isTextBlock]
    rw [this]
    rfl

/-- Witness for C2, at the spec's own example: a `text` block "hello" next to
a `tool_use` block extracts `"hello"` with tool-presence `true`; a lone
`tool_result` block extracts `""`. -/
theorem C2_content_extraction_witness :
    extract_content_with_meta (some (.str "abc")) = ("abc", false) ∧
    (extract_content_with_meta (some (.arr
        [.obj [("type", .str "text"), ("text", .str "hello")],
         .obj [("type", .str "tool_use")]]))).1 =
      joinWith "\n" (textFieldsOf
        [.obj [("type", .str "text"), ("text", .str "hello")],
         .obj [("type", .str "tool_use")]]) ∧
    (extract_content_with_meta (some (.arr
        [.obj [("type", .str "tool_result")]]))).1 = "" := by
  refine ⟨C2_content_extraction.1 "abc", (C2_content_extraction.2 _).1, ?_⟩
  exact (C2_content_extraction.2 _).2.2 (by decide)

/-! ## Calendar arithmetic: chrono's `%Y` and `%V` format codes

`build_search_index` computes week keys with
`ts.format("%Y-W%V")` (search.rs line 358), where `ts` is the
`DateTime<FixedOffset>` produced by `parse_from_rfc3339`.  Formatting
happens in the timestamp's own offset, so the rendered calendar date is
the one written in the RFC3339 string.  `%Y` is the (calendar) proleptic
Gregorian year zero-padded to 4 digits; `%V` is the ISO-8601 week
number (01–53).  We embed both over a plain date record. -/

structure Date where
  year : Nat
  month : Nat
  day : Nat
deriving DecidableEq

def isLeap (y : Nat) : Bool :=
  y % 4 == 0 && (y % 100 != 0 || y % 400 == 0)

/-- Cumulative days before month `m` in a non-leap year. -/
def cumDaysBefore (m : Nat) : Nat :=
  match m with
  | 1 => 0 | 2 => 31 | 3 => 59 | 4 => 90 | 5 => 120 | 6 => 151
  | 7 => 181 | 8 => 212 | 9 => 243 | 10 => 273 | 11 => 304 | 12 => 334
  | _ => 0

def daysInMonth (y m : Nat) : Nat :=
  if m = 2 then (if isLeap y then 29 else 28)
  else if m = 4 ∨ m = 6 ∨ m = 9 ∨ m = 11 then 30
  else 31

def Date.valid (d : Date) : Bool :=
  1 ≤ d.year && d.year ≤ 9999 && 1 ≤ d.month && d.month ≤ 12 &&
    1 ≤ d.day && d.day ≤ daysInMonth d.year d.month

/-- 1-based ordinal day of the year. -/
def dayOfYear (d : Date) : Nat :=
  cumDaysBefore d.month + (if isLeap d.year && decide (2 < d.month) then 1 else 0) + d.day

/-- Day of week by Sakamoto's method, 0 = Sunday .. 6 = Saturday. -/
def dayOfWeekSakamoto (d : Date) : Nat :=
  let t : Nat :=
    match d.month with
    | 1 => 0 | 2 => 3 | 3 => 2 | 4 => 5 | 5 => 0 | 6 => 3
    | 7 => 5 | 8 => 1 | 9 => 4 | 10 => 6 | 11 => 2 | 12 => 4
    | _ => 0
  let y := if d.month < 3 then d.year - 1 else d.year
  (y + y / 4 - y / 100 + y / 400 + t + d.day) % 7

/-- ISO weekday: Monday = 1 .. Sunday = 7. -/
def isoWeekday (d : Date) : Nat :=
  let w := dayOfWeekSakamoto d
  if w = 0 then 7 else w

/-- Number of ISO weeks in year `y`: 53 iff Jan 1 or Dec 31 of `y` is a
Thursday, else 52. -/
def isoWeeksInYear (y : Nat) : Nat :=
  if isoWeekday ⟨y, 1, 1⟩ = 4 ∨ isoWeekday ⟨y, 12, 31⟩ = 4 then 53 else 52

/-- ISO-8601 week-numbering year and week number of a date (week 1 is the
week containing the year's first Thursday; weeks run Monday–Sunday). -/
def isoYearWeek (d : Date) : Nat × Nat :=
  let w := (dayOfYear d + 10 - isoWeekday d) / 7
  if w = 0 then (d.year - 1, isoWeeksInYear (d.year - 1))
  else if isoWeeksInYear d.year < w then (d.year + 1, 1)
  else (d.year, w)

/-- The ISO week number of a date: chrono's `%V`. -/
def isoWeekNum (d : Date) : Nat := (isoYearWeek d).2

/-- The ISO week-numbering year of a date (chrono's `%G`; *not* used by the
code's format string). -/
def isoWeekYear (d : Date) : Nat := (isoYearWeek d).1

/-- The ISO week immediately following a given (week-year, week-number). -/
def nextIsoWeek (yw : Nat × Nat) : Nat × Nat :=
  if yw.2 < isoWeeksInYear yw.1 then (yw.1, yw.2 + 1) else (yw.1 + 1, 1)

def pad2 (n : Nat) : String :=
  if n < 10 then "0" ++ toString n else toString n

def pad4 (n : Nat) : String :=
  if n < 10 then "000" ++ toString n
  else if n < 100 then "00" ++ toString n
  else if n < 1000 then "0" ++ toString n
  else toString n

/-- The week key the code records usage under: `ts.format("%Y-W%V")`,
i.e. calendar year, literal "-W", two-digit ISO week number. -/
def weekKey (d : Date) : String :=
  pad4 d.year ++ "-W" ++ pad2 (isoWeekNum d)

/-- Modelled from the spec: "ISO week key format: four-digit year, literal
`-W`, two-digit zero-padded ISO week number (per ISO-8601 week-numbering
rules)" — i.e. the year component is the ISO week-numbering year.  Stated
from the spec's words for comparison with `weekKey`. -/
def isoWeekKeySpec (d : Date) : String :=
  pad4 (isoWeekYear d) ++ "-W" ++ pad2 (isoWeekNum d)

/-! Supporting lemmas about week numbers and key strings. -/

lemma isoWeeksInYear_eq_or (y : Nat) :
    isoWeeksInYear y = 52 ∨ isoWeeksInYear y = 53 := by
  unfold isoWeeksInYear
  split <;> simp

lemma isoWeekNum_bounds (d : Date) : 1 ≤ isoWeekNum d ∧ isoWeekNum d ≤ 53 := by
  have h1 := isoWeeksInYear_eq_or (d.year - 1)
  have h2 := isoWeeksInYear_eq_or d.year
  unfold isoWeekNum isoYearWeek
  dsimp only
  split
  · rcases h1 with h | h <;> simp [h]
  · split
    · simp
    · rename_i hne hle
      omega

lemma pad2_injOn_small :
    ∀ a : Nat, a < 54 → ∀ b : Nat, b < 54 → a ≠ b → pad2 a ≠ pad2 b := by
  decide

lemma string_append_left_cancel {a b c : String} (h : a ++ b = a ++ c) :
    b = c := by
  cases a with | mk la =>
  cases b with | mk lb =>
  cases c with | mk lc =>
  exact congrArg String.mk (by simpa using congrArg String.data h)

/-! ## Command-alias resolver (search.rs lines 229-277)

`scan_commands_for_aliases` recursively walks the command-definition
tree, and for each `.md` file whose frontmatter (`---` … `---`) has
`aliases:` lines, inserts `alias ↦ canonical` into a `HashMap`, where
`canonical` is the file's path relative to the tree root with the
extension stripped and separators folded to `':'`.  The directory tree
is modelled as a nested inductive (list order = `read_dir` order;
entries whose `read_dir`/`read_to_string` failed are skipped by the
source via `filter_map(ok)` / `if let Ok`, modelled by `Option`). -/

def AliasMap : Type := String → Option String

def emptyAliasMap : AliasMap := fun _ => none

/-- `HashMap::insert` (overwrite). -/
def insertAlias (a c : String) (m : AliasMap) : AliasMap :=
  fun x => if x = a then some c else m x

mutual
inductive CmdEntry where
  | file (name : String) (content : Option String)
  | dir (name : String) (entries : CmdForest)
inductive CmdForest where
  | nil
  | cons (e : CmdEntry) (rest : CmdForest)
end

/-- The alias strings declared by one `aliases:` frontmatter line:
split on `','`, trim whitespace, strip surrounding `'"'` and `'\''`,
strip leading `'/'`, drop empties. -/
def aliasesOfLine (line : String) : List String :=
  (splitOnStr "," (strTrim (trimStartMatchesStr "aliases:" line))).filterMap
    fun al =>
      let a := trimStartMatchesChar '/'
        (trimMatchesChar '\'' (trimMatchesChar '"' (strTrim al)))
      if a = "" then none else some a

/-- The alias strings declared by a definition file's content: frontmatter
is present iff the content starts with `"---"` and `"---"` occurs again;
every frontmatter line starting with `aliases:` contributes. -/
def aliasesOfContent (content : String) : List String :=
  if strStartsWith "---" content then
    match beforeFirst "---" (strDrop 3 content) with
    | some fm => (rustLines fm).flatMap fun line =>
        if strStartsWith "aliases:" line then aliasesOfLine line else []
    | none => []
  else []

/-- Canonical name of a definition file: relative path with the extension
stripped and `'/'` / `'\\'` folded to `':'`. `rel` is the containing
directory's path relative to the tree root (`""` or ending in `"/"`). -/
def canonicalName (rel name : String) : String :=
  strReplace (strReplace (rel ++ stripExtension name) "/" ":") "\\" ":"

/-- One definition file's `alias ↦ canonical` insertions, in order. -/
def filePairs (rel name : String) (content : Option String) :
    List (String × String) :=
  if rustExtension name = some "md" then
    match content with
    | some c => (aliasesOfContent c).map fun a => (a, canonicalName rel name)
    | none => []
  else []

/-- `HashMap` insertions of a pair list, in order (later wins). -/
def applyInserts (ps : List (String × String)) (m : AliasMap) : AliasMap :=
  ps.foldl (fun m' p => insertAlias p.1 p.2 m') m

mutual
/-- Embedding of `scan_commands_for_aliases`, entry step: a `.md` file
inserts its declared aliases in order; a directory is walked recursively
with the extended relative path. -/
def scanCmdEntry (rel : String) (e : CmdEntry) (m : AliasMap) : AliasMap :=
  match e with
  | .file n c => applyInserts (filePairs rel n c) m
  | .dir n sub => scanCmdForest (rel ++ n ++ "/") sub m

/-- Embedding of `scan_commands_for_aliases`, directory loop: entries are
processed in `read_dir` order, threading the map. -/
def scanCmdForest (rel : String) (es : CmdForest) (m : AliasMap) : AliasMap :=
  match es with
  | .nil => m
  | .cons e rest => scanCmdForest rel rest (scanCmdEntry rel e m)
end

/-- The alias map built before the transcript scan: empty when the
commands directory does not exist (search.rs lines 276-278). -/
def commandAliasMap (commandsTree : Option CmdForest) : AliasMap :=
  match commandsTree with
  | some es => scanCmdForest "" es emptyAliasMap
  | none => emptyAliasMap

mutual
/-- All `alias ↦ canonical` pairs contributed by one entry, in insertion
order. -/
def aliasPairsEntry (rel : String) (e : CmdEntry) : List (String × String) :=
  match e with
  | .file n c => filePairs rel n c
  | .dir n sub => aliasPairsForest (rel ++ n ++ "/") sub

/-- All `alias ↦ canonical` pairs of a forest in insertion (walk) order. -/
def aliasPairsForest (rel : String) (es : CmdForest) : List (String × String) :=
  match es with
  | .nil => []
  | .cons e rest => aliasPairsEntry rel e ++ aliasPairsForest rel rest
end

lemma applyInserts_append (xs ys : List (String × String)) (m : AliasMap) :
    applyInserts (xs ++ ys) m = applyInserts ys (applyInserts xs m) := by
  unfold applyInserts
  exact List.foldl_append _ _ _ _

lemma applyInserts_cons (p : String × String) (rest : List (String × String))
    (m : AliasMap) :
    applyInserts (p :: rest) m = applyInserts rest (insertAlias p.1 p.2 m) := rfl

mutual
/-- The walk is the fold of its insertion sequence (entry step). -/
lemma scanCmdEntry_eq_applyInserts (e : CmdEntry) :
    ∀ rel m, scanCmdEntry rel e m = applyInserts (aliasPairsEntry rel e) m := by
  intro rel m
  match e with
  | .file n c => rfl
  | .dir n sub =>
    show scanCmdForest (rel ++ n ++ "/") sub m = _
    rw [scanCmdForest_eq_applyInserts sub]
    rfl

/-- The walk is the fold of its insertion sequence (directory loop). -/
lemma scanCmdForest_eq_applyInserts (es : CmdForest) :
    ∀ rel m, scanCmdForest rel es m = applyInserts (aliasPairsForest rel es) m := by
  intro rel m
  match es with
  | .nil => rfl
  | .cons e rest =>
    show scanCmdForest rel rest (scanCmdEntry rel e m) = _
    rw [scanCmdForest_eq_applyInserts rest, scanCmdEntry_eq_applyInserts e]
    show _ = applyInserts (aliasPairsEntry rel e ++ aliasPairsForest rel rest) m
    rw [applyInserts_append]
end

lemma applyInserts_not_mem (ps : List (String × String)) (m : AliasMap)
    (a : String) (h : ∀ p ∈ ps, p.1 ≠ a) : applyInserts ps m a = m a := by
  induction ps generalizing m with
  | nil => rfl
  | cons p rest ih =>
    rw [applyInserts_cons]
    rw [ih _ (fun q hq => h q (List.mem_cons_of_mem p hq))]
    simp only [insertAlias]
    rw [if_neg (fun he => h p (List.mem_cons_self p rest) he.symm)]

/-- If `(a, c)` is inserted and every insertion with key `a` carries the
same canonical `c`, the final map sends `a` to `c`. -/
lemma applyInserts_lookup (ps : List (String × String)) (m : AliasMap)
    (a c : String) (hmem : (a, c) ∈ ps)
    (huniq : ∀ c', (a, c') ∈ ps → c' = c) : applyInserts ps m a = some c := by
  induction ps generalizing m with
  | nil => cases hmem
  | cons p rest ih =>
    by_cases hrest : ∃ c', (a, c') ∈ rest
    · obtain ⟨c', hc'⟩ := hrest
      have : c' = c := huniq c' (List.mem_cons_of_mem p hc')
      subst this
      exact ih (insertAlias p.1 p.2 m) hc'
        (fun c'' h'' => huniq c'' (List.mem_cons_of_mem p h''))
    · have hnot : ∀ q ∈ rest, q.1 ≠ a := by
        intro q hq he
        exact hrest ⟨q.2, by rw [← he]; exact hq⟩
      have hp : p = (a, c) := by
        rcases List.mem_cons.mp hmem with h | h
        · rcases p with ⟨p1, p2⟩
          have : p1 = a := by cases h; rfl
          subst this
          have : p2 = c := huniq p2 (List.mem_cons_self _ _)
          subst this; rfl
        · exact absurd ⟨c, h⟩ hrest
      subst hp
      rw [applyInserts_cons]
      rw [applyInserts_not_mem _ _ _ hnot]
      simp [insertAlias]

/-! ## Transcript scan (build_search_index, search.rs lines 184-407)

A transcript line is modelled by the outputs of the external libraries
the source applies to it: the `serde_json::from_str::<RawLine>` result,
the two `line.contains(..)` tests, and the capture-group-1 strings of
the regex `<command-name>(/[^<]+)</command-name>`.  A `Timestamp`
carries the raw string (stored into documents verbatim) and the result
of chrono's `parse_from_rfc3339` reduced to the calendar date it would
format (`%Y`/`%V` depend only on the date in the timestamp's own
offset). -/

structure Timestamp where
  text : String
  parsedDate : Option Date
deriving DecidableEq

structure RawMessage where
  role : Option String
  content : Option Json

structure RawLine where
  line_type : Option String
  summary : Option String
  uuid : Option String
  message : Option RawMessage
  timestamp : Option Timestamp
  is_meta : Option Bool

structure ScanLine where
  parsed : Option RawLine
  hasCommandMarker : Bool
  hasQueueOp : Bool
  commandCaptures : List String

/-- One indexed document (the eight stored fields of the schema). -/
structure Doc where
  uuid : String
  content : String
  role : String
  project_id : String
  project_path : String
  session_id : String
  session_summary : String
  timestamp : String
deriving DecidableEq

/-- First pass over a transcript's lines: the `summary` field of the first
parseable line whose type is "summary" (the source breaks there even when
that field is absent). -/
def firstPassSummary : List ScanLine → Option String
  | [] => none
  | ℓ :: rest =>
    match ℓ.parsed with
    | some r =>
      if r.line_type = some "summary" then r.summary else firstPassSummary rest
    | none => firstPassSummary rest

/-- Second pass, per parsed line: the document emitted for a user/assistant
message record, unless it is flagged meta or extracts to empty text. -/
def lineDoc (projectId displayPath sessionId : String) (summary : Option String)
    (r : RawLine) : Option Doc :=
  if r.line_type = some "user" ∨ r.line_type = some "assistant" then
    match r.message with
    | some msg =>
      let role := msg.role.getD ""
      let text_content := (extract_content_with_meta msg.content).1
      let is_meta := r.is_meta.getD false
      if is_meta = false ∧ text_content ≠ "" then
        some { uuid := r.uuid.getD ""
               content := text_content
               role := role
               project_id := projectId
               project_path := displayPath
               session_id := sessionId
               session_summary := summary.getD ""
               timestamp := (r.timestamp.map (·.text)).getD "" }
      else none
    | none => none
  else none

/-- Second pass, per line: the `(canonical-name, week-key)` increments the
command-stats collection performs for this line (search.rs lines 352-375). -/
def lineStatsEvents (aliasMap : AliasMap) (ℓ : ScanLine) :
    List (String × String) :=
  match ℓ.parsed with
  | none => []
  | some r =>
    if ℓ.hasCommandMarker = true ∧ ℓ.hasQueueOp = false then
      match r.timestamp with
      | some ts =>
        match ts.parsedDate with
        | some d =>
          ℓ.commandCaptures.map fun cap =>
            let raw_name := trimStartMatchesChar '/' cap
            ((aliasMap raw_name).getD raw_name, weekKey d)
        | none => []
      | none => []
    else []

/-- Both passes over one transcript: its documents (in line order) and its
stats increments. -/
def processLines (aliasMap : AliasMap) (projectId displayPath sessionId : String)
    (lines : List ScanLine) : List Doc × List (String × String) :=
  let summary := firstPassSummary lines
  (lines.filterMap (fun ℓ => ℓ.parsed.bind (lineDoc projectId displayPath sessionId summary)),
   lines.flatMap (lineStatsEvents aliasMap))

/-- A directory entry inside one project directory: its file name and the
`fs::read_to_string` outcome (`none` = read error; the source then falls
back to the empty string, i.e. no lines). -/
structure FileEntry where
  name : String
  content : Option (List ScanLine)

/-- An entry of the projects root. `entries` is the `fs::read_dir` outcome
for the project directory; `Except.error` items model `Err` entries yielded
by the iterator. -/
structure ProjectEntry where
  name : String
  isDir : Bool
  entries : Except String (List (Except String FileEntry))

/-- The filesystem state consumed by one `build_search_index` run. -/
structure ScanInput where
  commandsTree : Option CmdForest
  decodeProjectPath : String → String
  rootExists : Bool
  rootEntries : Except String (List (Except String ProjectEntry))

/-- Inner loop over one project directory (search.rs lines 298-379):
`.jsonl` files not starting with `agent-` are processed; an `Err`
directory entry aborts with that error (`map_err(..)?`). -/
def scanProjectFiles (aliasMap : AliasMap) (projectId displayPath : String) :
    List (Except String FileEntry) →
      Except String (List Doc × List (String × String))
  | [] => .ok ([], [])
  | .error e :: _ => .error e
  | .ok f :: rest =>
    let here :=
      if strEndsWith ".jsonl" f.name = true ∧ strStartsWith "agent-" f.name = false then
        processLines aliasMap projectId displayPath
          (trimEndMatchesStr ".jsonl" f.name) (f.content.getD [])
      else ([], [])
    match scanProjectFiles aliasMap projectId displayPath rest with
    | .error e => .error e
    | .ok (ds, ss) => .ok (here.1 ++ ds, here.2 ++ ss)

/-- Outer loop over the projects root (search.rs lines 284-380): non-dir
entries are skipped, an `Err` entry or a failing project `read_dir`
aborts with that error. -/
def scanProjects (aliasMap : AliasMap) (decode : String → String) :
    List (Except String ProjectEntry) →
      Except String (List Doc × List (String × String))
  | [] => .ok ([], [])
  | .error e :: _ => .error e
  | .ok p :: rest =>
    let here : Except String (List Doc × List (String × String)) :=
      if p.isDir = true then
        match p.entries with
        | .error e => .error e
        | .ok es => scanProjectFiles aliasMap p.name (decode p.name) es
      else .ok ([], [])
    match here with
    | .error e => .error e
    | .ok (ds, ss) =>
      match scanProjects aliasMap decode rest with
      | .error e => .error e
      | .ok (ds2, ss2) => .ok (ds ++ ds2, ss ++ ss2)

/-- The command-usage statistics map accumulated from the increment
events: `HashMap` entry/or_default/and_modify(+1)/or_insert(1). -/
def statsOf (events : List (String × String)) : String → String → Nat :=
  events.foldl
    (fun m e => fun nm wk => if nm = e.1 ∧ wk = e.2 then m nm wk + 1 else m nm wk)
    (fun _ _ => 0)

structure BuildOutput where
  docs : List Doc
  stats : String → String → Nat

/-- The scan phase of `build_search_index`: alias map, existence check on
the projects root (returning `Ok(0)` when absent, lines 280-282), then the
two-level directory walk. -/
def buildScan (inp : ScanInput) : Except String BuildOutput :=
  let aliasMap := commandAliasMap inp.commandsTree
  if inp.rootExists = false then .ok ⟨[], statsOf []⟩
  else
    match inp.rootEntries with
    | .error e => .error e
    | .ok pes =>
      match scanProjects aliasMap inp.decodeProjectPath pes with
      | .error e => .error e
      | .ok (ds, ss) => .ok ⟨ds, statsOf ss⟩

/-- What `build_search_index` returns to the caller, plus whether the
command-stats artifact was rewritten. -/
structure BuildReturn where
  result : Except String Nat
  statsArtifactWritten : Bool

/-- Embedding of `build_search_index`'s observable outcome.
`statsWriteOk` is the outcome `fs::write` would have; the source discards
it with `.ok()` (line 397-401), so it does not influence `result`. -/
def build_search_index (inp : ScanInput) (statsWriteOk : Bool) : BuildReturn :=
  if inp.rootExists = false then ⟨.ok 0, false⟩
  else
    match buildScan inp with
    | .error e => ⟨.error e, false⟩
    | .ok out => ⟨.ok out.docs.length, statsWriteOk⟩

/-! ## Query engine (search_chats, search.rs lines 409-505)

Tantivy internals (index open, reader, query parse, ranked retrieval)
are external; their outcomes are inputs.  `topDocs K` is the engine's
ranked top-`K` list for the parsed query; relevance scores are inert
payload (`f32` values the code never inspects), modelled opaquely. -/

structure Score where
  raw : Nat
deriving DecidableEq

structure SearchResult where
  uuid : String
  content : String
  role : String
  project_id : String
  project_path : String
  session_id : String
  session_summary : Option String
  timestamp : String
  score : Score
deriving DecidableEq

/-- The environment a `search_chats` call runs against. -/
structure SearchEnv where
  bound : Bool
  indexDirExists : Bool
  openOk : Except String Unit
  readerOk : Except String Unit
  parseOk : Except String Unit
  topDocs : Nat → List (Score × Doc)

/-- The filter step: `if let Some(ref filter_id) = project_id { if
&doc_project_id != filter_id { continue; } }`. -/
def keepDoc (project_id : Option String) (doc : Doc) : Bool :=
  match project_id with
  | some filter_id => doc.project_id == filter_id
  | none => true

/-- The result-assembly loop (search.rs lines 458-502): post-filter by
`project_id` after retrieval, map stored fields to a result record,
`session_summary` emptied to `none`. -/
def assembleResults (project_id : Option String) :
    List (Score × Doc) → List SearchResult
  | [] => []
  | (score, doc) :: rest =>
    if keepDoc project_id doc = false then
      assembleResults project_id rest
    else
      { uuid := doc.uuid
        content := doc.content
        role := doc.role
        project_id := doc.project_id
        project_path := doc.project_path
        session_id := doc.session_id
        session_summary :=
          if doc.session_summary = "" then none else some doc.session_summary
        timestamp := doc.timestamp
        score := score } :: assembleResults project_id rest

/-- Embedding of `search_chats`. -/
def search_chats (env : SearchEnv) (_query : String) (limit : Option Nat)
    (project_id : Option String) : Except String (List SearchResult) :=
  let max_results := limit.getD 50
  if env.bound = false ∧ env.indexDirExists = false then
    .error "Search index not built. Please build index first."
  else
    match (if env.bound then Except.ok () else env.openOk) with
    | .error e => .error e
    | .ok _ =>
      match env.readerOk with
      | .error e => .error e
      | .ok _ =>
        match env.parseOk with
        | .error e => .error e
        | .ok _ => .ok (assembleResults project_id (env.topDocs max_results))

/-- Length of a returned result list (0 when the call errors). -/
def resultLen : Except String (List SearchResult) → Nat
  | .error _ => 0
  | .ok l => l.length

/-! ## Tokenizer (JiebaTokenizer::token_stream, search.rs lines 48-77)

`JIEBA.cut(text, true)` is the external segmenter; its output `words`
is an input.  The adapter trims each word and keeps only non-empty
trimmed words as tokens, assigning offsets via substring search. -/

structure Token where
  offset_from : Nat
  offset_to : Nat
  position : Nat
  text : String
deriving DecidableEq

/-- Index of the first occurrence of `needle` in `hay` (Rust `str::find`),
at `Char` granularity. -/
def firstIdxOf (needle hay : List Char) : Option Nat :=
  match hay with
  | [] => if needle = [] then some 0 else none
  | _ :: rest =>
    if needle.isPrefixOf hay then some 0
    else (firstIdxOf needle rest).map (· + 1)

/-- One loop iteration of `JiebaTokenizer::token_stream`: trim the word;
if non-empty, locate it from the current offset and push a token. -/
def jiebaStep (text : String) (acc : List Token × Nat) (word : String) :
    List Token × Nat :=
  let word_str := strTrim word
  if word_str ≠ "" then
    let start :=
      match firstIdxOf word.toList (text.toList.drop acc.2) with
      | some i => acc.2 + i
      | none => acc.2
    let stop := start + strLen word
    (acc.1 ++ [{ offset_from := start, offset_to := stop,
                 position := acc.1.length, text := word_str }], stop)
  else acc

/-- Embedding of `JiebaTokenizer::token_stream`'s token construction from
the segmenter output `words`. -/
def jiebaTokenStream (text : String) (words : List String) : List Token :=
  (words.foldl (jiebaStep text) ([], 0)).1

/-! ## Claims C5, C7, C10 -/

lemma assembleResults_none_length (tds : List (Score × Doc)) :
    (assembleResults none tds).length = tds.length := by
  induction tds with
  | nil => rfl
  | cons td rest ih =>
    rcases td with ⟨s, d⟩
    simp only [assembleResults, keepDoc]
    rw [if_neg (by simp)]
    simp [ih]

lemma assembleResults_length_le (p : Option String) (tds : List (Score × Doc)) :
    (assembleResults p tds).length ≤ tds.length := by
  induction tds with
  | nil => exact Nat.le_refl 0
  | cons td rest ih =>
    rcases td with ⟨s, d⟩
    rw [assembleResults]
    split
    · exact Nat.le_succ_of_le ih
    · simpa using ih

/-- **C5.** For every query, limit and project filter, a filtered search
returns at most as many results as the unfiltered search against the same
index state: the filter is applied after drawing the top-K ranking and only
drops hits, so it never expands the result set. -/
theorem C5_filter_never_expands (env : SearchEnv) (q : String)
    (limit : Option Nat) (p : String) :
    resultLen (search_chats env q limit (some p)) ≤
      resultLen (search_chats env q limit none) := by
  unfold search_chats
  dsimp only
  split
  · exact Nat.le_refl 0
  · split
    · exact Nat.le_refl 0
    · split
      · exact Nat.le_refl 0
      · split
        · exact Nat.le_refl 0
        · simp only [resultLen]
          rw [assembleResults_none_length]
          exact assembleResults_length_le _ _

/-- **C7.** If search is invoked when no bound index is held in the
process-wide slot and no on-disk index directory exists, it fails with the
distinct, user-actionable message "Search index not built. Please build
index first." and returns no result list. -/
theorem C7_search_before_build (env : SearchEnv) (q : String)
    (limit : Option Nat) (project_id : Option String)
    (h1 : env.bound = false) (h2 : env.indexDirExists = false) :
    search_chats env q limit project_id =
      .error "Search index not built. Please build index first." := by
  unfold search_chats
  dsimp only
  rw [if_pos ⟨h1, h2⟩]

/-- Witness for C7 at a concrete environment. -/
theorem C7_search_before_build_witness :
    search_chats
        { bound := false, indexDirExists := false, openOk := .ok (),
          readerOk := .ok (), parseOk := .ok (), topDocs := fun _ => [] }
        "login" none none =
      .error "Search index not built. Please build index first." :=
  C7_search_before_build _ "login" none none rfl rfl

/-- **C10.** `build_search_index` reports the same result to the caller
whether or not writing the command-usage statistics artifact succeeds, and
when the write fails the artifact is not updated even though the build can
report success: a successful build result does not guarantee the statistics
artifact on disk was rewritten. -/
theorem C10_stats_write_error_discarded (inp : ScanInput) (w : Bool) :
    (build_search_index inp w).result = (build_search_index inp true).result ∧
    (build_search_index inp false).statsArtifactWritten = false := by
  constructor
  · unfold build_search_index
    split
    · rfl
    · split <;> rfl
  · unfold build_search_index
    split
    · rfl
    · split <;> rfl

/-! ## Claim C9 -/

lemma jiebaStep_text_invariant (text : String) :
    ∀ words : List String, ∀ acc : List Token × Nat,
      (∀ t ∈ acc.1, t.text ≠ "") →
      ∀ t ∈ (words.foldl (jiebaStep text) acc).1, t.text ≠ "" := by
  intro words
  induction words with
  | nil => intro acc h; exact h
  | cons w rest ih =>
    intro acc h
    rw [List.foldl_cons]
    apply ih
    unfold jiebaStep
    dsimp only
    split
    · rename_i hne
      intro t ht
      rcases List.mem_append.mp ht with h1 | h1
      · exact h t h1
      · rw [List.mem_singleton.mp h1]
        exact hne
    · exact h

lemma jiebaStep_all_blank (text : String) :
    ∀ words : List String, ∀ acc : List Token × Nat,
      (∀ w ∈ words, strTrim w = "") →
      words.foldl (jiebaStep text) acc = acc := by
  intro words
  induction words with
  | nil => intro acc _; rfl
  | cons w rest ih =>
    intro acc h
    rw [List.foldl_cons]
    have hw : strTrim w = "" := h w (List.mem_cons_self _ _)
    have hstep : jiebaStep text acc w = acc := by
      unfold jiebaStep
      dsimp only
      rw [if_neg (by simp [hw])]
    rw [hstep]
    exact ih acc (fun x hx => h x (List.mem_cons_of_mem w hx))

/-- **C9.** For every input string and segmenter output, the tokenizer
produces no empty token (every emitted token's text is non-empty after
trimming); and on degenerate input — when every segment is whitespace-only,
as for the empty string or pure whitespace — it yields zero tokens without
error. -/
theorem C9_tokenizer (text : String) (words : List String) :
    (∀ t ∈ jiebaTokenStream text words, t.text ≠ "") ∧
    ((∀ w ∈ words, strTrim w = "") → jiebaTokenStream text words = []) := by
  constructor
  · exact jiebaStep_text_invariant text words ([], 0) (by intro t ht; cases ht)
  · intro h
    unfold jiebaTokenStream
    rw [jiebaStep_all_blank text words ([], 0) h]

/-- Witness for C9: on "hello world" segmented as jieba would, the first
token is "hello" (non-empty); pure-whitespace input yields no tokens. -/
theorem C9_tokenizer_witness :
    ({ offset_from := 0, offset_to := 5, position := 0, text := "hello" } :
        Token).text ≠ "" ∧
    jiebaTokenStream "   " ["   "] = [] ∧
    jiebaTokenStream "" [] = [] := by
  refine ⟨?_, ?_, ?_⟩
  · exact (C9_tokenizer "hello world" ["hello", " ", "world"]).1 _ (by decide)
  · exact (C9_tokenizer "   " ["   "]).2 (by decide)
  · exact (C9_tokenizer "" []).2 (by decide)

/-! ## Claim C4 -/

/-- Projects root absent (`projects_dir.exists()` false). -/
def inpAbsentRoot : ScanInput :=
  { commandsTree := none, decodeProjectPath := fun _ => "",
    rootExists := false, rootEntries := .error "unused" }

/-- Projects root present but its enumeration fails. -/
def inpUnreadableRoot : ScanInput :=
  { commandsTree := none, decodeProjectPath := fun _ => "",
    rootExists := true, rootEntries := .error "permission denied" }

/-- **C4 counterexample.** The claim says that an absent projects root (one
flavour of "enumerating the top-level projects root fails") is reported as
an operation-level error; on this input the code instead completes
successfully with count 0 (search.rs lines 280-282 return `Ok(0)`). -/
theorem C4_counterexample :
    (build_search_index inpAbsentRoot true).result = .ok 0 ∧
    ¬ ∃ e, (build_search_index inpAbsentRoot true).result = .error e := by
  refine ⟨rfl, ?_⟩
  intro ⟨e, he⟩
  rw [show (build_search_index inpAbsentRoot true).result = .ok 0 from rfl] at he
  cases he

/-- **C4 (amended).** If the projects root does not exist, `build_index`
reports success with count 0 (nothing to scan is not an error); only when
the root exists but enumerating it fails does `build_index` report an
operation-level error to the caller. -/
theorem C4_amended (inp : ScanInput) (e : String) :
    (inp.rootExists = false → (build_search_index inp true).result = .ok 0) ∧
    (inp.rootExists = true → inp.rootEntries = .error e →
      (build_search_index inp true).result = .error e) := by
  constructor
  · intro h
    unfold build_search_index
    rw [if_pos h]
  · intro h1 h2
    have hb : buildScan inp = .error e := by
      unfold buildScan
      dsimp only
      rw [if_neg (by simp [h1]), h2]
    unfold build_search_index
    rw [if_neg (by simp [h1]), hb]

/-- Witness for C4 (amended) at concrete inputs. -/
theorem C4_amended_witness :
    (build_search_index inpAbsentRoot true).result = .ok 0 ∧
    (build_search_index inpUnreadableRoot true).result =
      .error "permission denied" :=
  ⟨(C4_amended inpAbsentRoot "x").1 rfl,
   (C4_amended inpUnreadableRoot "permission denied").2 rfl rfl⟩

/-! ## Concrete transcript fixtures -/

/-- A parseable "summary" record (`RawLine` fields in order: line_type,
summary, uuid, message, timestamp, is_meta; `ScanLine` fields: parsed,
hasCommandMarker, hasQueueOp, commandCaptures). -/
def summaryLine (text : String) : ScanLine :=
  ⟨some ⟨some "summary", some text, none, none, none, none⟩, false, false, []⟩

/-- A parseable "user" message record with plain-string content. -/
def userLine (uuidStr text : String) : ScanLine :=
  ⟨some ⟨some "user", none, some uuidStr,
      some ⟨some "user", some (.str text)⟩,
      some ⟨"2025-04-07T10:00:00Z", some ⟨2025, 4, 7⟩⟩, none⟩,
    false, false, []⟩

/-- A line on which `serde_json::from_str::<RawLine>` fails. -/
def badLine : ScanLine := ⟨none, false, false, []⟩

/-- A parseable record carrying a command-invocation marker, one regex
capture and a timestamp. -/
def cmdLine (cap ts : String) (d : Date) : ScanLine :=
  ⟨some ⟨some "user", none, none, none, some ⟨ts, some d⟩, none⟩,
    true, false, [cap]⟩

def goodFile : FileEntry :=
  { name := "s1.jsonl",
    content := some [summaryLine "Refactor auth module",
                     userLine "u1" "fix the login bug"] }

/-! ## Claim C3 -/

def isOkE {α : Type} : Except String α → Bool
  | .ok _ => true
  | .error _ => false

def fileEntryOk : Except String FileEntry → Bool
  | .ok _ => true
  | .error _ => false

def projectEntryOk : Except String ProjectEntry → Bool
  | .error _ => false
  | .ok p =>
    if p.isDir = true then
      match p.entries with
      | .error _ => false
      | .ok es => es.all fileEntryOk
    else true

/-- No directory-enumeration step of the scan yields an `Err` item. -/
def scanInputOk (inp : ScanInput) : Bool :=
  if inp.rootExists = true then
    match inp.rootEntries with
    | .error _ => false
    | .ok ps => ps.all projectEntryOk
  else true

lemma firstPassSummary_skip (b : ScanLine) (hb : b.parsed = none) :
    ∀ pre post : List ScanLine,
      firstPassSummary (pre ++ b :: post) = firstPassSummary (pre ++ post) := by
  intro pre post
  induction pre with
  | nil =>
    simp only [List.nil_append]
    rw [firstPassSummary, hb]
  | cons ℓ pre ih =>
    simp only [List.cons_append]
    cases hp : ℓ.parsed with
    | none =>
      simp only [firstPassSummary, hp]
      exact ih
    | some r =>
      simp only [firstPassSummary, hp]
      split
      · rfl
      · exact ih

lemma lineStatsEvents_bad (am : AliasMap) (b : ScanLine) (hb : b.parsed = none) :
    lineStatsEvents am b = [] := by
  unfold lineStatsEvents
  rw [hb]

/-- An unparseable line contributes nothing and aborts nothing. -/
lemma processLines_skip_bad (am : AliasMap) (pid dp sid : String)
    (pre post : List ScanLine) (b : ScanLine) (hb : b.parsed = none) :
    processLines am pid dp sid (pre ++ b :: post) =
      processLines am pid dp sid (pre ++ post) := by
  unfold processLines
  rw [firstPassSummary_skip b hb pre post]
  refine congrArg₂ Prod.mk ?_ ?_
  · simp only [List.filterMap_append, List.filterMap_cons, hb, Option.none_bind]
  · simp only [List.flatMap_append, List.flatMap_cons, lineStatsEvents_bad am b hb,
      List.nil_append]

lemma scanProjectFiles_all_ok (am : AliasMap) (pid dp : String) :
    ∀ es : List (Except String FileEntry), es.all fileEntryOk = true →
      isOkE (scanProjectFiles am pid dp es) = true := by
  intro es
  induction es with
  | nil => intro _; rfl
  | cons e rest ih =>
    intro h
    rw [List.all_cons, Bool.and_eq_true] at h
    cases e with
    | error s => simp [fileEntryOk] at h
    | ok f =>
      rw [scanProjectFiles]
      have := ih h.2
      cases hres : scanProjectFiles am pid dp rest with
      | error e => rw [hres] at this; simp [isOkE] at this
      | ok pr =>
        rcases pr with ⟨ds, ss⟩
        rfl

lemma isOkE_exists {α : Type} (x : Except String α) (h : isOkE x = true) :
    ∃ a, x = .ok a := by
  cases x with
  | error e => simp [isOkE] at h
  | ok a => exact ⟨a, rfl⟩

lemma scanProjects_all_ok (am : AliasMap) (dec : String → String) :
    ∀ ps : List (Except String ProjectEntry), ps.all projectEntryOk = true →
      isOkE (scanProjects am dec ps) = true := by
  intro ps
  induction ps with
  | nil => intro _; rfl
  | cons q rest ih =>
    intro h
    rw [List.all_cons, Bool.and_eq_true] at h
    cases q with
    | error s => simp [projectEntryOk] at h
    | ok p =>
      rw [scanProjects]
      have hhere : isOkE (if p.isDir = true then
          match p.entries with
          | .error e => .error e
          | .ok es => scanProjectFiles am p.name (dec p.name) es
        else .ok ([], [])) = true := by
        split
        · rename_i hdir
          cases hent : p.entries with
          | error e =>
            have hp := h.1
            rw [projectEntryOk, if_pos hdir, hent] at hp
            simp at hp
          | ok es =>
            have hp := h.1
            rw [projectEntryOk, if_pos hdir, hent] at hp
            exact scanProjectFiles_all_ok am p.name (dec p.name) es hp
        · rfl
      obtain ⟨⟨ds, ss⟩, hX⟩ := isOkE_exists _ hhere
      rw [hX]
      obtain ⟨⟨ds2, ss2⟩, hX2⟩ := isOkE_exists _ (ih h.2)
      rw [hX2]
      rfl

/-- A project directory whose listing yields one `Err` entry followed by a
well-formed indexable transcript. -/
def projWithErrEntry : ProjectEntry where
  name := "p1"
  isDir := true
  entries := .ok [.error "I/O error", .ok goodFile]

/-- An input with an `Err` entry in the listing of project directory `p1`
(everything else well-formed and indexable). -/
def inpDirEntryErr : ScanInput :=
  { commandsTree := none, decodeProjectPath := fun _ => "",
    rootExists := true, rootEntries := .ok [.ok projWithErrEntry] }

/-- **C3 counterexample.** The claim says a single unreadable directory
entry never aborts the overall scan; but an `Err` item yielded by
`fs::read_dir` is propagated with `?` (search.rs line 299), aborting the
whole build with that error instead of returning an indexed-document
count. -/
theorem C3_counterexample :
    buildScan inpDirEntryErr = .error "I/O error" ∧
    (build_search_index inpDirEntryErr true).result = .error "I/O error" :=
  ⟨rfl, rfl⟩

/-- **C3 (amended).** A single unparseable JSON line is skipped (the scan
of a transcript is unchanged by its presence), and a transcript with no
summary record or an unreadable transcript file likewise never aborts the
scan: whenever every directory entry enumerates cleanly the build
completes and returns a count.  However, an `Err` directory entry (in the
projects root listing or a project listing) aborts the build with an
operation-level error. -/
theorem C3_amended :
    (∀ (am : AliasMap) (pid dp sid : String) (pre post : List ScanLine)
        (b : ScanLine), b.parsed = none →
        processLines am pid dp sid (pre ++ b :: post) =
          processLines am pid dp sid (pre ++ post)) ∧
    (∀ inp : ScanInput, scanInputOk inp = true →
        isOkE (buildScan inp) = true) := by
  constructor
  · intro am pid dp sid pre post b hb
    exact processLines_skip_bad am pid dp sid pre post b hb
  · intro inp h
    unfold buildScan
    dsimp only
    split
    · rfl
    · rename_i hroot
      rw [scanInputOk] at h
      have hroot' : inp.rootExists = true := by
        cases hre : inp.rootExists
        · exact absurd hre hroot
        · rfl
      rw [if_pos hroot'] at h
      cases hent : inp.rootEntries with
      | error e => rw [hent] at h; simp at h
      | ok ps =>
        rw [hent] at h
        have hok := scanProjects_all_ok (commandAliasMap inp.commandsTree)
          inp.decodeProjectPath ps h
        obtain ⟨⟨ds, ss⟩, hX⟩ := isOkE_exists _ hok
        show isOkE (match scanProjects (commandAliasMap inp.commandsTree)
            inp.decodeProjectPath ps with
          | .error e => (.error e : Except String BuildOutput)
          | .ok (ds, ss) => .ok ⟨ds, statsOf ss⟩) = true
        rw [hX]
        rfl

/-- A clean project directory holding one indexable transcript. -/
def projAllOk : ProjectEntry where
  name := "p1"
  isDir := true
  entries := .ok [.ok goodFile]

/-- A fully well-formed input: one project, one transcript. -/
def inpAllOk : ScanInput :=
  { commandsTree := none, decodeProjectPath := fun _ => "",
    rootExists := true, rootEntries := .ok [.ok projAllOk] }

/-- Witness for C3 (amended): a bad line between two good lines changes
nothing, and an input whose directory entries all enumerate cleanly
builds successfully. -/
theorem C3_amended_witness :
    processLines emptyAliasMap "p1" "" "s1"
        ([summaryLine "S"] ++ badLine :: [userLine "u1" "hello"]) =
      processLines emptyAliasMap "p1" "" "s1"
        ([summaryLine "S"] ++ [userLine "u1" "hello"]) ∧
    isOkE (buildScan inpAllOk) = true :=
  ⟨C3_amended.1 emptyAliasMap "p1" "" "s1" [summaryLine "S"]
      [userLine "u1" "hello"] badLine rfl,
   C3_amended.2 inpAllOk rfl⟩

/-! ## Claim C1 -/

/-- Alias resolution applied to one regex capture (search.rs lines
360-364): strip leading `'/'`, then look up the alias map, falling back
to the raw name. -/
def resolveAlias (am : AliasMap) (cap : String) : String :=
  let raw_name := trimStartMatchesChar '/' cap
  (am raw_name).getD raw_name

/-- **C1 counterexample.** 2024-12-30 and 2025-01-02 are valid dates in the
same ISO week (2025-W01, crossing the year boundary), yet the code's
`%Y-W%V` key buckets their command invocations under the different keys
"2024-W01" and "2025-W01" — and the recorded key "2024-W01" is not the
ISO-8601 week key of the timestamp, which is "2025-W01". -/
theorem C1_counterexample :
    (⟨2024, 12, 30⟩ : Date).valid = true ∧
    (⟨2025, 1, 2⟩ : Date).valid = true ∧
    isoYearWeek ⟨2024, 12, 30⟩ = isoYearWeek ⟨2025, 1, 2⟩ ∧
    lineStatsEvents emptyAliasMap
        (cmdLine "/foo" "2024-12-30T12:00:00+00:00" ⟨2024, 12, 30⟩) =
      [("foo", "2024-W01")] ∧
    lineStatsEvents emptyAliasMap
        (cmdLine "/foo" "2025-01-02T12:00:00+00:00" ⟨2025, 1, 2⟩) =
      [("foo", "2025-W01")] ∧
    ("2024-W01" : String) ≠ "2025-W01" ∧
    weekKey ⟨2024, 12, 30⟩ ≠ isoWeekKeySpec ⟨2024, 12, 30⟩ := by
  refine ⟨by decide, by decide, by decide, by decide, by decide, by decide,
    by decide⟩

/-- **C1 (amended).** For every transcript record containing a
command-invocation marker (and not a queue-operation) whose timestamp
parses, each captured command increments the bucket keyed by
`%Y-W%V`: the timestamp's *calendar* year paired with its ISO week
number.  Consequently two such timestamps in the same ISO week increment
the same bucket *provided they fall in the same calendar year* (which
covers Sunday/Monday month boundaries but not year boundaries, where the
keys differ), and a timestamp in the adjacent ISO week within the same
calendar year increments a different key. -/
theorem C1_amended :
    (∀ (am : AliasMap) (ℓ : ScanLine) (r : RawLine) (ts : Timestamp)
        (d : Date),
        ℓ.hasCommandMarker = true → ℓ.hasQueueOp = false →
        ℓ.parsed = some r → r.timestamp = some ts → ts.parsedDate = some d →
        lineStatsEvents am ℓ =
          ℓ.commandCaptures.map (fun cap => (resolveAlias am cap, weekKey d))) ∧
    (∀ d1 d2 : Date, d1.year = d2.year → isoYearWeek d1 = isoYearWeek d2 →
        weekKey d1 = weekKey d2) ∧
    (∀ d1 d2 : Date, d1.year = d2.year →
        isoYearWeek d2 = nextIsoWeek (isoYearWeek d1) →
        weekKey d1 ≠ weekKey d2) := by
  refine ⟨?_, ?_, ?_⟩
  · intro am ℓ r ts d hm hq hp hts hd
    unfold lineStatsEvents
    rw [hp]
    show (if ℓ.hasCommandMarker = true ∧ ℓ.hasQueueOp = false then
        match r.timestamp with
        | some ts =>
          match ts.parsedDate with
          | some d =>
            ℓ.commandCaptures.map fun cap =>
              let raw_name := trimStartMatchesChar '/' cap
              ((am raw_name).getD raw_name, weekKey d)
          | none => []
        | none => []
      else []) = _
    rw [if_pos ⟨hm, hq⟩, hts]
    show (match ts.parsedDate with
      | some d =>
        ℓ.commandCaptures.map fun cap =>
          let raw_name := trimStartMatchesChar '/' cap
          ((am raw_name).getD raw_name, weekKey d)
      | none => []) = _
    rw [hd]
    rfl
  · intro d1 d2 hy hw
    unfold weekKey isoWeekNum
    rw [hy, hw]
  · intro d1 d2 hy hnext heq
    have hb1 := isoWeekNum_bounds d1
    have hw1 : isoWeekNum d1 = (isoYearWeek d1).2 := rfl
    have hw2 : isoWeekNum d2 = (nextIsoWeek (isoYearWeek d1)).2 := by
      rw [isoWeekNum, hnext]
    have hbw := isoWeeksInYear_eq_or (isoYearWeek d1).1
    have hkey : isoWeekNum d1 ≠ isoWeekNum d2 ∧ isoWeekNum d2 < 54 := by
      rw [hw2]
      unfold nextIsoWeek
      split
      · rename_i hlt
        dsimp only
        omega
      · rename_i hge
        dsimp only
        omega
    have hpad : pad2 (isoWeekNum d1) = pad2 (isoWeekNum d2) := by
      unfold weekKey at heq
      rw [hy] at heq
      exact string_append_left_cancel heq
    exact pad2_injOn_small (isoWeekNum d1) (by omega) (isoWeekNum d2)
      hkey.2 hkey.1 hpad

/-- Witness for C1 (amended): a concrete invocation is bucketed under
`%Y-W%V`; 2024-09-30/2024-10-01 (same ISO week across a month boundary,
same year) share a key; 2024-07-01 and 2024-07-08 (adjacent ISO weeks,
same year) get different keys. -/
theorem C1_amended_witness :
    lineStatsEvents emptyAliasMap
        (cmdLine "/foo" "2025-04-07T10:00:00+00:00" ⟨2025, 4, 7⟩) =
      ["/foo"].map
        (fun cap => (resolveAlias emptyAliasMap cap, weekKey ⟨2025, 4, 7⟩)) ∧
    weekKey ⟨2024, 9, 30⟩ = weekKey ⟨2024, 10, 1⟩ ∧
    weekKey ⟨2024, 7, 1⟩ ≠ weekKey ⟨2024, 7, 8⟩ :=
  ⟨C1_amended.1 emptyAliasMap
      (cmdLine "/foo" "2025-04-07T10:00:00+00:00" ⟨2025, 4, 7⟩)
      ⟨some "user", none, none, none,
        some ⟨"2025-04-07T10:00:00+00:00", some ⟨2025, 4, 7⟩⟩, none⟩
      ⟨"2025-04-07T10:00:00+00:00", some ⟨2025, 4, 7⟩⟩ ⟨2025, 4, 7⟩
      rfl rfl rfl rfl rfl,
   C1_amended.2.1 ⟨2024, 9, 30⟩ ⟨2024, 10, 1⟩ rfl (by decide),
   C1_amended.2.2 ⟨2024, 7, 1⟩ ⟨2024, 7, 8⟩ rfl (by decide)⟩

/-! ## Claim C6 -/

/-- Two definition files that both declare the alias `/dup`. -/
def dupTree : CmdForest :=
  .cons (.file "a.md" (some "---\naliases: /dup\n---\n"))
    (.cons (.file "b.md" (some "---\naliases: /dup\n---\n")) .nil)

/-- **C6 counterexample.** `a.md` (canonical name "a") declares alias
`/dup`, so by the claim `/dup` must resolve to "a"; but `b.md` declares
the same alias and is scanned later, and the walk's later insertion
wins: the map sends "dup" to "b". -/
theorem C6_counterexample :
    ("dup", "a") ∈ aliasPairsForest "" dupTree ∧
    commandAliasMap (some dupTree) "dup" = some "b" ∧
    ("b" : String) ≠ "a" := by
  refine ⟨by decide, by decide, by decide⟩

/-- **C6 (amended).** For every command-definition tree, an alias `a`
declared by a definition file with path-derived canonical name `c`
(path relative to the tree root, separators folded to `':'`, extension
stripped — the construction of `aliasPairsForest`) resolves to `c`
*unless another file in the tree declares the same alias with a different
canonical name, in which case the one scanned last wins*; under that
proviso a transcript invocation of `/a` increments the usage week-bucket
of the canonical name `c`, not of `a`. -/
theorem C6_amended (es : CmdForest) (a c : String)
    (hmem : (a, c) ∈ aliasPairsForest "" es)
    (huniq : ∀ p ∈ aliasPairsForest "" es, p.1 = a → p.2 = c) :
    commandAliasMap (some es) a = some c ∧
    (∀ (d : Date) (ts cap : String),
        trimStartMatchesChar '/' cap = a →
        lineStatsEvents (commandAliasMap (some es)) (cmdLine cap ts d) =
          [(c, weekKey d)]) := by
  have hlook : commandAliasMap (some es) a = some c := by
    show scanCmdForest "" es emptyAliasMap a = some c
    rw [scanCmdForest_eq_applyInserts es "" emptyAliasMap]
    exact applyInserts_lookup _ _ a c hmem
      (fun c' h' => huniq (a, c') h' rfl)
  refine ⟨hlook, ?_⟩
  intro d ts cap hcap
  show [((commandAliasMap (some es) (trimStartMatchesChar '/' cap)).getD
      (trimStartMatchesChar '/' cap), weekKey d)] = [(c, weekKey d)]
  rw [hcap, hlook]
  rfl

/-- The spec's own example tree: `foo/bar.md` declaring
`aliases: "/baz, /qux"`. -/
def specCmdTree : CmdForest :=
  .cons (.dir "foo" (.cons (.file "bar.md"
      (some "---\naliases: \"/baz, /qux\"\n---\n")) .nil)) .nil

/-- Witness for C6 (amended) at the spec's example: `/baz` resolves to
`foo:bar` and a transcript invoking `/baz` increments the bucket of
`foo:bar`, not of `baz`. -/
theorem C6_amended_witness :
    commandAliasMap (some specCmdTree) "baz" = some "foo:bar" ∧
    lineStatsEvents (commandAliasMap (some specCmdTree))
        (cmdLine "/baz" "2025-04-07T10:00:00+00:00" ⟨2025, 4, 7⟩) =
      [("foo:bar", "2025-W15")] := by
  have h := C6_amended specCmdTree "baz" "foo:bar" (by decide) (by decide)
  refine ⟨h.1, ?_⟩
  rw [h.2 ⟨2025, 4, 7⟩ "2025-04-07T10:00:00+00:00" "/baz" (by decide)]
  decide

/-! ## Claim C8 -/

def docsOf : Except String BuildOutput → List Doc
  | .ok o => o.docs
  | .error _ => []

/-- The `Ok` values of a `read_dir` listing, in order. -/
def okValues {α : Type} : List (Except String α) → List α
  | [] => []
  | .ok a :: rest => a :: okValues rest
  | .error _ :: rest => okValues rest

def entriesOf (p : ProjectEntry) : List (Except String FileEntry) :=
  match p.entries with
  | .ok es => es
  | .error _ => []

def rootEntriesOf (inp : ScanInput) : List (Except String ProjectEntry) :=
  match inp.rootEntries with
  | .ok ps => ps
  | .error _ => []

/-- Indexed-transcript test of the scan loop as a Bool. -/
def isTranscriptName (n : String) : Bool :=
  strEndsWith ".jsonl" n && !(strStartsWith "agent-" n)

lemma mem_okValues {α : Type} (a : α) :
    ∀ l : List (Except String α), (Except.ok a) ∈ l → a ∈ okValues l := by
  intro l
  induction l with
  | nil => intro h; cases h
  | cons e rest ih =>
    intro h
    cases e with
    | ok b =>
      rcases List.mem_cons.mp h with h' | h'
      · have hab := Except.ok.inj h'
        rw [okValues, ← hab]
        exact List.mem_cons_self _ _
      · exact List.mem_cons_of_mem b (ih h')
    | error s =>
      rcases List.mem_cons.mp h with h' | h'
      · exact Except.noConfusion h'
      · exact ih h' 

lemma pairwise_key_inj {α β : Type} (key : α → β) :
    ∀ l : List α, l.Pairwise (fun x y => key x ≠ key y) →
      ∀ a ∈ l, ∀ b ∈ l, key a = key b → a = b := by
  intro l
  induction l with
  | nil => intro _ a ha; cases ha
  | cons x rest ih =>
    intro hp a ha b hb hkey
    have hx := List.pairwise_cons.mp hp
    rcases List.mem_cons.mp ha with ha' | ha' <;>
      rcases List.mem_cons.mp hb with hb' | hb'
    · rw [ha', hb']
    · exact absurd (ha' ▸ hkey) (hx.1 b hb')
    · exact absurd (hb' ▸ hkey.symm) (hx.1 a ha')
    · exact ih hx.2 a ha' b hb' hkey

lemma lineDoc_fields (pid dp sid : String) (summ : Option String)
    (r : RawLine) (d : Doc) (h : lineDoc pid dp sid summ r = some d) :
    d.project_id = pid ∧ d.session_id = sid ∧
      d.session_summary = summ.getD "" := by
  unfold lineDoc at h
  split at h
  · cases hmsg : r.message with
    | none => rw [hmsg] at h; cases h
    | some msg =>
      rw [hmsg] at h
      dsimp only at h
      split at h
      · cases h
        exact ⟨rfl, rfl, rfl⟩
      · cases h
  · cases h

lemma processLines_mem (am : AliasMap) (pid dp sid : String)
    (lines : List ScanLine) (d : Doc)
    (h : d ∈ (processLines am pid dp sid lines).1) :
    d.project_id = pid ∧ d.session_id = sid ∧
      d.session_summary = (firstPassSummary lines).getD "" := by
  unfold processLines at h
  dsimp only at h
  rw [List.mem_filterMap] at h
  obtain ⟨ℓ, _, hℓ⟩ := h
  cases hp : ℓ.parsed with
  | none => rw [hp] at hℓ; cases hℓ
  | some r =>
    rw [hp] at hℓ
    exact lineDoc_fields pid dp _ _ r d hℓ

lemma scanProjectFiles_mem (am : AliasMap) (pid dp : String) :
    ∀ (es : List (Except String FileEntry)) (ds : List Doc)
      (ss : List (String × String)),
      scanProjectFiles am pid dp es = .ok (ds, ss) →
      ∀ d ∈ ds, ∃ f : FileEntry, (Except.ok f) ∈ es ∧
        isTranscriptName f.name = true ∧
        d.project_id = pid ∧
        d.session_id = trimEndMatchesStr ".jsonl" f.name ∧
        d.session_summary =
          (firstPassSummary (f.content.getD [])).getD "" := by
  intro es
  induction es with
  | nil =>
    intro ds ss h d hd
    cases h
    cases hd
  | cons e rest ih =>
    intro ds ss h d hd
    cases e with
    | error s => exact Except.noConfusion h
    | ok f =>
      rw [scanProjectFiles] at h
      cases hres : scanProjectFiles am pid dp rest with
      | error e2 => rw [hres] at h; exact Except.noConfusion h
      | ok pr =>
        rcases pr with ⟨ds', ss'⟩
        rw [hres] at h
        injection h with h
        injection h with hds hss
        subst hds
        rcases List.mem_append.mp hd with hd' | hd'
        · by_cases hc : strEndsWith ".jsonl" f.name = true ∧
              strStartsWith "agent-" f.name = false
          · rw [if_pos hc] at hd'
            obtain ⟨h1, h2, h3⟩ := processLines_mem am pid dp _ _ d hd'
            refine ⟨f, List.mem_cons_self _ _, ?_, h1, h2, h3⟩
            simp [isTranscriptName, hc.1, hc.2]
          · rw [if_neg hc] at hd'
            cases hd'
        · obtain ⟨f', hmem, hrest⟩ := ih ds' ss' hres d hd'
          exact ⟨f', List.mem_cons_of_mem _ hmem, hrest⟩

lemma scanProjects_mem (am : AliasMap) (dec : String → String) :
    ∀ (ps : List (Except String ProjectEntry)) (ds : List Doc)
      (ss : List (String × String)),
      scanProjects am dec ps = .ok (ds, ss) →
      ∀ d ∈ ds, ∃ p : ProjectEntry, (Except.ok p) ∈ ps ∧ p.isDir = true ∧
        ∃ (es : List (Except String FileEntry)) (ds' : List Doc)
          (ss' : List (String × String)),
          p.entries = .ok es ∧
          scanProjectFiles am p.name (dec p.name) es = .ok (ds', ss') ∧
          d ∈ ds' := by
  intro ps
  induction ps with
  | nil =>
    intro ds ss h d hd
    cases h
    cases hd
  | cons q rest ih =>
    intro ds ss h d hd
    cases q with
    | error s => exact Except.noConfusion h
    | ok p =>
      rw [scanProjects] at h
      by_cases hdir : p.isDir = true
      · rw [if_pos hdir] at h
        cases hent : p.entries with
        | error e2 => rw [hent] at h; exact Except.noConfusion h
        | ok es =>
          rw [hent] at h
          replace h : (match scanProjectFiles am p.name (dec p.name) es with
            | .error e =>
              (.error e : Except String (List Doc × List (String × String)))
            | .ok (ds1, ss1) =>
              match scanProjects am dec rest with
              | .error e => .error e
              | .ok (ds2, ss2) => .ok (ds1 ++ ds2, ss1 ++ ss2)) =
              .ok (ds, ss) := h
          cases hfiles : scanProjectFiles am p.name (dec p.name) es with
          | error e2 => rw [hfiles] at h; exact Except.noConfusion h
          | ok pr1 =>
            rcases pr1 with ⟨ds1, ss1⟩
            rw [hfiles] at h
            cases hres : scanProjects am dec rest with
            | error e2 => rw [hres] at h; exact Except.noConfusion h
            | ok pr2 =>
              rcases pr2 with ⟨ds2, ss2⟩
              rw [hres] at h
              injection h with h
              injection h with hds hss
              subst hds
              rcases List.mem_append.mp hd with hd' | hd'
              · exact ⟨p, List.mem_cons_self _ _, hdir,
                  es, ds1, ss1, hent, hfiles, hd'⟩
              · obtain ⟨p', hmem, hrest⟩ := ih ds2 ss2 hres d hd'
                exact ⟨p', List.mem_cons_of_mem _ hmem, hrest⟩
      · rw [if_neg hdir] at h
        replace h : (match scanProjects am dec rest with
          | .error e =>
            (.error e : Except String (List Doc × List (String × String)))
          | .ok (ds2, ss2) => .ok ([] ++ ds2, [] ++ ss2)) = .ok (ds, ss) := h
        cases hres : scanProjects am dec rest with
        | error e2 => rw [hres] at h; exact Except.noConfusion h
        | ok pr2 =>
          rcases pr2 with ⟨ds2, ss2⟩
          rw [hres] at h
          injection h with h
          injection h with hds hss
          subst hds
          rcases List.mem_append.mp hd with hd' | hd'
          · cases hd'
          · obtain ⟨p', hmem, hrest⟩ := ih ds2 ss2 hres d hd'
            exact ⟨p', List.mem_cons_of_mem _ hmem, hrest⟩

/-- `buildScan` success comes from a successful project scan. -/
lemma buildScan_ok_inv (inp : ScanInput) (out : BuildOutput)
    (hscan : buildScan inp = .ok out) :
    out.docs = [] ∨
    ∃ (ps : List (Except String ProjectEntry)) (ss : List (String × String)),
      inp.rootEntries = .ok ps ∧
      scanProjects (commandAliasMap inp.commandsTree) inp.decodeProjectPath ps =
        .ok (out.docs, ss) := by
  unfold buildScan at hscan
  dsimp only at hscan
  split at hscan
  · left
    cases hscan
    rfl
  · cases hent : inp.rootEntries with
    | error e => rw [hent] at hscan; exact Except.noConfusion hscan
    | ok ps =>
      rw [hent] at hscan
      replace hscan : (match scanProjects (commandAliasMap inp.commandsTree)
          inp.decodeProjectPath ps with
        | .error e => (.error e : Except String BuildOutput)
        | .ok (ds, ss) => .ok ⟨ds, statsOf ss⟩) = .ok out := hscan
      cases hres : scanProjects (commandAliasMap inp.commandsTree)
          inp.decodeProjectPath ps with
      | error e => rw [hres] at hscan; exact Except.noConfusion hscan
      | ok pr =>
        rcases pr with ⟨ds, ss⟩
        rw [hres] at hscan
        injection hscan with hscan
        right
        refine ⟨ps, ss, rfl, ?_⟩
        rw [← hscan]
        exact hres

/-- Two .jsonl transcripts whose names collapse to the same stem under
`trim_end_matches(".jsonl")`. -/
def fileStemA : FileEntry :=
  ⟨"a.jsonl", some [summaryLine "S1", userLine "u1" "m1"]⟩

def fileStemAA : FileEntry :=
  ⟨"a.jsonl.jsonl", some [summaryLine "S2", userLine "u2" "m2"]⟩

def projStemCollision : ProjectEntry where
  name := "p1"
  isDir := true
  entries := .ok [.ok fileStemA, .ok fileStemAA]

def inpStemCollision : ScanInput :=
  ⟨none, fun _ => "", true, .ok [.ok projStemCollision]⟩

/-- **C8 counterexample.**  The transcripts `a.jsonl` and `a.jsonl.jsonl`
coexist in one project directory; `trim_end_matches(".jsonl")` strips the
suffix *repeatedly*, so both emit documents with `session_id` "a" — the
same project and session — yet carry the different summaries "S1" and
"S2".  The claim's invariant (documents of the same session share an
identical `session_summary`) fails on this input. -/
theorem C8_counterexample :
    docsOf (buildScan inpStemCollision) =
      [⟨"u1", "m1", "user", "p1", "", "a", "S1", "2025-04-07T10:00:00Z"⟩,
       ⟨"u2", "m2", "user", "p1", "", "a", "S2", "2025-04-07T10:00:00Z"⟩] ∧
    (⟨"u1", "m1", "user", "p1", "", "a", "S1", "2025-04-07T10:00:00Z"⟩ :
        Doc).project_id =
      (⟨"u2", "m2", "user", "p1", "", "a", "S2", "2025-04-07T10:00:00Z"⟩ :
        Doc).project_id ∧
    (⟨"u1", "m1", "user", "p1", "", "a", "S1", "2025-04-07T10:00:00Z"⟩ :
        Doc).session_id =
      (⟨"u2", "m2", "user", "p1", "", "a", "S2", "2025-04-07T10:00:00Z"⟩ :
        Doc).session_id ∧
    (⟨"u1", "m1", "user", "p1", "", "a", "S1", "2025-04-07T10:00:00Z"⟩ :
        Doc).session_summary ≠
      (⟨"u2", "m2", "user", "p1", "", "a", "S2", "2025-04-07T10:00:00Z"⟩ :
        Doc).session_summary := by
  refine ⟨by decide, by decide, by decide, by decide⟩

/-- **C8 (amended).** At index-build time every emitted document carries
exactly one project and one session; the summary is computed once per
transcript in a first pass and copied verbatim onto each of that
transcript's documents; and provided the project names are distinct and no
two indexed transcripts of a project collapse to the same stem under
repeated `.jsonl`-stripping (e.g. `a.jsonl` vs `a.jsonl.jsonl`), any two
documents with the same `project_id` and `session_id` carry an identical
`session_summary`. -/
theorem C8_amended (inp : ScanInput) (out : BuildOutput)
    (hscan : buildScan inp = .ok out)
    (Hproj : (okValues (rootEntriesOf inp)).Pairwise
      (fun p q => p.name ≠ q.name))
    (Hfile : ∀ p ∈ okValues (rootEntriesOf inp),
        ((okValues (entriesOf p)).filter
            (fun f => isTranscriptName f.name)).Pairwise
          (fun f g => trimEndMatchesStr ".jsonl" f.name ≠
            trimEndMatchesStr ".jsonl" g.name)) :
    ∀ d1 ∈ out.docs, ∀ d2 ∈ out.docs,
      d1.project_id = d2.project_id → d1.session_id = d2.session_id →
        d1.session_summary = d2.session_summary := by
  intro d1 hd1 d2 hd2 hpid hsid
  rcases buildScan_ok_inv inp out hscan with hempty | ⟨ps, ss, hent, hres⟩
  · rw [hempty] at hd1
    cases hd1
  · have hps : rootEntriesOf inp = ps := by rw [rootEntriesOf, hent]
    obtain ⟨p1, hp1, hdir1, es1, dsa, ssa, hent1, hscan1, hda⟩ :=
      scanProjects_mem _ _ ps out.docs ss hres d1 hd1
    obtain ⟨p2, hp2, hdir2, es2, dsb, ssb, hent2, hscan2, hdb⟩ :=
      scanProjects_mem _ _ ps out.docs ss hres d2 hd2
    obtain ⟨f1, hf1, ht1, hpid1, hsid1, hsum1⟩ :=
      scanProjectFiles_mem _ _ _ es1 dsa ssa hscan1 d1 hda
    obtain ⟨f2, hf2, ht2, hpid2, hsid2, hsum2⟩ :=
      scanProjectFiles_mem _ _ _ es2 dsb ssb hscan2 d2 hdb
    have hname : p1.name = p2.name := by rw [← hpid1, ← hpid2]; exact hpid
    have hpeq : p1 = p2 := by
      apply pairwise_key_inj (fun p : ProjectEntry => p.name)
        (okValues (rootEntriesOf inp)) Hproj
      · rw [hps]; exact mem_okValues p1 ps hp1
      · rw [hps]; exact mem_okValues p2 ps hp2
      · exact hname
    subst hpeq
    have hes : es1 = es2 := by
      have := hent1.symm.trans hent2
      exact Except.ok.inj this
    subst hes
    have hfmem1 : f1 ∈ (okValues (entriesOf p1)).filter
        (fun f => isTranscriptName f.name) := by
      rw [List.mem_filter]
      refine ⟨?_, ht1⟩
      rw [entriesOf, hent1]
      exact mem_okValues f1 es1 hf1
    have hfmem2 : f2 ∈ (okValues (entriesOf p1)).filter
        (fun f => isTranscriptName f.name) := by
      rw [List.mem_filter]
      refine ⟨?_, ht2⟩
      rw [entriesOf, hent1]
      exact mem_okValues f2 es1 hf2
    have hstem : trimEndMatchesStr ".jsonl" f1.name =
        trimEndMatchesStr ".jsonl" f2.name := by
      rw [← hsid1, ← hsid2]; exact hsid
    have hfeq : f1 = f2 := by
      apply pairwise_key_inj
        (fun f : FileEntry => trimEndMatchesStr ".jsonl" f.name)
        _ (Hfile p1 (by rw [hps]; exact mem_okValues p1 ps hp1))
        f1 hfmem1 f2 hfmem2 hstem
    rw [hsum1, hsum2, hfeq]

/-- One project with one transcript emitting two documents. -/
def twoMsgFile : FileEntry :=
  ⟨"s2.jsonl", some [summaryLine "Refactor auth module",
    userLine "u1" "fix the login bug", userLine "u2" "Fixed, see auth.py"]⟩

def projTwoMsg : ProjectEntry where
  name := "p2"
  isDir := true
  entries := .ok [.ok twoMsgFile]

def inpTwoMsg : ScanInput := ⟨none, fun _ => "", true, .ok [.ok projTwoMsg]⟩

/-- Witness for C8 (amended): both documents of transcript `s2.jsonl`
carry the summary computed in the first pass. -/
theorem C8_amended_witness :
    (⟨"u1", "fix the login bug", "user", "p2", "", "s2",
      "Refactor auth module", "2025-04-07T10:00:00Z"⟩ : Doc).session_summary =
    (⟨"u2", "Fixed, see auth.py", "user", "p2", "", "s2",
      "Refactor auth module", "2025-04-07T10:00:00Z"⟩ : Doc).session_summary := by
  refine C8_amended inpTwoMsg
    ⟨[⟨"u1", "fix the login bug", "user", "p2", "", "s2",
        "Refactor auth module", "2025-04-07T10:00:00Z"⟩,
      ⟨"u2", "Fixed, see auth.py", "user", "p2", "", "s2",
        "Refactor auth module", "2025-04-07T10:00:00Z"⟩], statsOf []⟩
    rfl ?_ ?_ _ (by decide) _ (by decide) rfl rfl
  · decide
  · decide

end Lovcode
